import Mathlib

/-!
Verification development for the zodb-s3blobs repository.

The repository implements a ZODB blob-storage adapter that keeps blobs in an
S3-compatible object store, with a size-bounded local filesystem cache and a
per-transaction staging area.  The Python sources are shallowly embedded here:

 * filesystem directories and the remote object store become association lists
   from paths/keys to file contents;
 * the mutable `S3BlobStorage` instance state (`_pending_blobs`,
   `_uploaded_keys`) together with the staging directory, the cache directory
   and the remote bucket become the `BlobState` record;
 * operations that may raise are parameterised by failure oracles (one boolean
   oracle per fallible external call), and `try/except` blocks in the source
   become explicit matches on the oracle outcome;
 * `oid`/`tid` values (8-byte strings in ZODB) become natural numbers below
   2^64, and blob contents become strings.
-/

namespace ZodbS3Blobs

/-! ### Association-list maps

Filesystem directories and the remote bucket are modelled as association
lists keyed by path/key strings, in the style of a simple list-backed map.
`insertA` overwrites in place (Python dict update / file overwrite),
`removeA` deletes every binding of the key (file removal).
-/

def lookupA {α β : Type} [DecidableEq α] : List (α × β) → α → Option β
  | [], _ => none
  | (k, v) :: rest, k0 => if k = k0 then some v else lookupA rest k0

def insertA {α β : Type} [DecidableEq α] : List (α × β) → α → β → List (α × β)
  | [], k0, v0 => [(k0, v0)]
  | (k, v) :: rest, k0, v0 =>
      if k = k0 then (k0, v0) :: rest else (k, v) :: insertA rest k0 v0

def removeA {α β : Type} [DecidableEq α] (l : List (α × β)) (k0 : α) : List (α × β) :=
  l.filter (fun p => ! decide (p.1 = k0))

theorem lookupA_insertA_self {α β : Type} [DecidableEq α]
    (l : List (α × β)) (k : α) (v : β) : lookupA (insertA l k v) k = some v := by
  induction l with
  | nil => simp [insertA, lookupA]
  | cons p rest ih =>
      obtain ⟨k1, v1⟩ := p
      by_cases h : k1 = k
      · simp [insertA, h, lookupA]
      · simp [insertA, h, lookupA, ih]

theorem lookupA_insertA_ne {α β : Type} [DecidableEq α]
    (l : List (α × β)) {k k' : α} (v : β) (h : k' ≠ k) :
    lookupA (insertA l k v) k' = lookupA l k' := by
  have hne : ¬ k = k' := fun hh => h hh.symm
  induction l with
  | nil => simp [insertA, lookupA, hne]
  | cons p rest ih =>
      obtain ⟨k1, v1⟩ := p
      by_cases h1 : k1 = k
      · subst h1
        simp [insertA, lookupA, hne]
      · simp [insertA, h1, lookupA, ih]

theorem lookupA_removeA_self {α β : Type} [DecidableEq α]
    (l : List (α × β)) (k : α) : lookupA (removeA l k) k = none := by
  induction l with
  | nil => rfl
  | cons p rest ih =>
      obtain ⟨k1, v1⟩ := p
      by_cases h : k1 = k
      · simpa [removeA, List.filter_cons, h] using ih
      · simpa [removeA, List.filter_cons, h, lookupA] using ih

theorem lookupA_removeA_ne {α β : Type} [DecidableEq α]
    (l : List (α × β)) {k k' : α} (h : k' ≠ k) :
    lookupA (removeA l k) k' = lookupA l k' := by
  have hne : ¬ k = k' := fun hh => h hh.symm
  induction l with
  | nil => rfl
  | cons p rest ih =>
      obtain ⟨k1, v1⟩ := p
      by_cases h1 : k1 = k
      · subst h1
        simpa [removeA, List.filter_cons, lookupA, hne] using ih
      · simp only [removeA, List.filter_cons] at ih ⊢
        by_cases h2 : k1 = k'
        · simp [h1, lookupA, h2, ih, h]
        · simp [h1, lookupA, h2, ih, h]

theorem lookupA_isSome_iff_mem {α β : Type} [DecidableEq α]
    (l : List (α × β)) (k : α) :
    (lookupA l k).isSome = true ↔ k ∈ l.map Prod.fst := by
  induction l with
  | nil => simp [lookupA]
  | cons p rest ih =>
      obtain ⟨k1, v1⟩ := p
      by_cases h : k1 = k
      · simp [lookupA, h]
      · simp only [lookupA, if_neg h, List.map_cons, List.mem_cons]
        rw [ih]
        constructor
        · exact Or.inr
        · rintro (hh | hh)
          · exact absurd hh.symm h
          · exact hh

/-! ### Hexadecimal rendering

`cache._hex`, `storage._oid_hex` and `storage._tid_hex` all render an 8-byte
oid/tid as `ZODB.utils.oid_repr(x).removeprefix("0x").lstrip("0") or "0"`.
`oid_repr` itself (ZODB.utils) hexlifies the 8 bytes, strips leading zero
characters, substitutes "0" for the empty result and prepends "0x".
Identifiers are modelled as naturals below 2^64; `binascii.hexlify` of the
big-endian 8-byte packing is the 16-digit zero-padded lowercase hex string.
-/

def hexDigitChar (d : Nat) : Char :=
  if d < 10 then Char.ofNat (d + 48) else Char.ofNat (d + 87)

def minHexAux : Nat → Nat → List Char
  | 0, _ => []
  | fuel + 1, n => if n = 0 then [] else minHexAux fuel (n / 16) ++ [hexDigitChar (n % 16)]

def minHexChars (n : Nat) : List Char := minHexAux (n + 1) n

def hexlify8 (n : Nat) : List Char :=
  List.replicate (16 - (minHexChars n).length) '0' ++ minHexChars n

def lstripZeros (l : List Char) : List Char :=
  l.dropWhile (fun c => decide (c = '0'))

def orZeroStr (l : List Char) : String :=
  if l.isEmpty then "0" else String.mk l

def oid_repr (n : Nat) : String :=
  "0x" ++ orZeroStr (lstripZeros (hexlify8 n))

def removePrefix0xChars (l : List Char) : List Char :=
  match l with
  | '0' :: 'x' :: rest => rest
  | _ => l

def _hex (n : Nat) : String :=
  orZeroStr (lstripZeros (removePrefix0xChars (oid_repr n).toList))

def _oid_hex (n : Nat) : String :=
  orZeroStr (lstripZeros (removePrefix0xChars (oid_repr n).toList))

def _tid_hex (n : Nat) : String :=
  orZeroStr (lstripZeros (removePrefix0xChars (oid_repr n).toList))

def hexDigitVal (c : Char) : Nat :=
  if '0' ≤ c ∧ c ≤ '9' then c.toNat - 48
  else if 'a' ≤ c ∧ c ≤ 'f' then c.toNat - 87
  else 0

def hexValList (l : List Char) : Nat :=
  l.foldl (fun acc c => 16 * acc + hexDigitVal c) 0

theorem hexDigitVal_hexDigitChar {d : Nat} (h : d < 16) :
    hexDigitVal (hexDigitChar d) = d := by
  interval_cases d <;> decide

theorem hexDigitChar_mem_charset {d : Nat} (h : d < 16) :
    hexDigitChar d ∈ "0123456789abcdef".toList := by
  interval_cases d <;> decide

theorem hexDigitChar_ne_slash {d : Nat} (h : d < 16) :
    hexDigitChar d ≠ '/' := by
  interval_cases d <;> decide

theorem hexDigitChar_ne_zero_char {d : Nat} (hlt : d < 16) (hne : d ≠ 0) :
    hexDigitChar d ≠ '0' := by
  interval_cases d
  case _ => exact absurd rfl hne
  all_goals decide

theorem minHexAux_fuel {n : Nat} : ∀ (f g : Nat), n < f → n < g →
    minHexAux f n = minHexAux g n := by
  induction n using Nat.strong_induction_on with
  | _ n ih =>
      intro f g h1 h2
      match f, g with
      | g1 + 1, g2 + 1 =>
        by_cases h : n = 0
        · simp [minHexAux, h]
        · have hd : n / 16 < n := Nat.div_lt_self (Nat.pos_of_ne_zero h) (by decide)
          simp only [minHexAux, h, if_false, ite_false]
          rw [ih (n / 16) hd g1 g2 (by omega) (by omega)]

theorem minHexChars_zero : minHexChars 0 = [] := rfl

theorem minHexChars_pos {n : Nat} (h : n ≠ 0) :
    minHexChars n = minHexChars (n / 16) ++ [hexDigitChar (n % 16)] := by
  obtain ⟨m, rfl⟩ := Nat.exists_eq_succ_of_ne_zero h
  have hd : (m + 1) / 16 < m + 1 := Nat.div_lt_self (Nat.succ_pos m) (by decide)
  have step : minHexAux (m + 1 + 1) (m + 1)
      = if m + 1 = 0 then []
        else minHexAux (m + 1) ((m + 1) / 16) ++ [hexDigitChar ((m + 1) % 16)] := rfl
  unfold minHexChars
  rw [step, if_neg (Nat.succ_ne_zero m)]
  rw [minHexAux_fuel (m + 1) ((m + 1) / 16 + 1) hd (Nat.lt_succ_self _)]

theorem minHexChars_head_ne_zero (n : Nat) (h : n ≠ 0) :
    ∃ c l, minHexChars n = c :: l ∧ c ≠ '0' := by
  induction n using Nat.strong_induction_on with
  | _ n ih =>
      rw [minHexChars_pos h]
      by_cases h16 : n / 16 = 0
      · have hlt : n < 16 := by omega
        refine ⟨hexDigitChar (n % 16), [], by simp [h16, minHexChars_zero], ?_⟩
        exact hexDigitChar_ne_zero_char (Nat.mod_lt _ (by decide)) (by omega)
      · obtain ⟨c, l, hcl, hc⟩ :=
          ih (n / 16) (Nat.div_lt_self (Nat.pos_of_ne_zero h) (by decide)) h16
        exact ⟨c, l ++ [hexDigitChar (n % 16)], by simp [hcl], hc⟩

theorem hexValList_minHexChars (n : Nat) : hexValList (minHexChars n) = n := by
  induction n using Nat.strong_induction_on with
  | _ n ih =>
      by_cases h : n = 0
      · simp [h, minHexChars_zero, hexValList]
      · rw [minHexChars_pos h]
        have hdiv := ih (n / 16) (Nat.div_lt_self (Nat.pos_of_ne_zero h) (by decide))
        unfold hexValList at hdiv ⊢
        rw [List.foldl_append]
        simp [hdiv, hexDigitVal_hexDigitChar (Nat.mod_lt n (by decide : (0:Nat) < 16))]
        omega

theorem minHexChars_injective {a b : Nat} (h : minHexChars a = minHexChars b) :
    a = b := by
  have ha := hexValList_minHexChars a
  have hb := hexValList_minHexChars b
  rw [h] at ha
  omega

theorem minHexChars_mem_charset (n : Nat) :
    ∀ c ∈ minHexChars n, c ∈ "0123456789abcdef".toList := by
  induction n using Nat.strong_induction_on with
  | _ n ih =>
      by_cases h : n = 0
      · simp [h, minHexChars_zero]
      · rw [minHexChars_pos h]
        intro c hc
        rcases List.mem_append.mp hc with hmem | hmem
        · exact ih (n / 16) (Nat.div_lt_self (Nat.pos_of_ne_zero h) (by decide)) c hmem
        · have : c = hexDigitChar (n % 16) := by simpa using hmem
          subst this
          exact hexDigitChar_mem_charset (Nat.mod_lt n (by decide))

theorem dropWhile_replicate_append (p : Char → Bool) (hp : p '0' = true)
    (k : Nat) (l : List Char) :
    (List.replicate k '0' ++ l).dropWhile p = l.dropWhile p := by
  induction k with
  | zero => simp
  | succ k ihk => simp [List.replicate_succ, List.dropWhile_cons, hp, ihk]

theorem lstripZeros_hexlify8 (n : Nat) : lstripZeros (hexlify8 n) = minHexChars n := by
  unfold lstripZeros hexlify8
  rw [dropWhile_replicate_append _ (by decide)]
  by_cases h : n = 0
  · simp [h, minHexChars_zero]
  · obtain ⟨c, l, hcl, hc⟩ := minHexChars_head_ne_zero n h
    rw [hcl, List.dropWhile_cons]
    simp [hc]

theorem _hex_eq (n : Nat) :
    _hex n = if n = 0 then "0" else String.mk (minHexChars n) := by
  by_cases h : n = 0
  · subst h
    rfl
  · obtain ⟨c, l, hcl, hc⟩ := minHexChars_head_ne_zero n h
    have hne : (minHexChars n).isEmpty = false := by rw [hcl]; rfl
    have horz : orZeroStr (minHexChars n) = String.mk (minHexChars n) := by
      simp [orZeroStr, hne]
    have hstrip2 : lstripZeros (minHexChars n) = minHexChars n := by
      unfold lstripZeros
      rw [hcl, List.dropWhile_cons]
      simp [hc]
    unfold _hex oid_repr
    rw [lstripZeros_hexlify8, horz, if_neg h]
    have h1 : ("0x" ++ String.mk (minHexChars n)).toList = '0' :: 'x' :: minHexChars n := rfl
    have h2 : removePrefix0xChars ('0' :: 'x' :: minHexChars n) = minHexChars n := rfl
    rw [h1, h2, hstrip2, horz]

theorem _oid_hex_eq_hex (n : Nat) : _oid_hex n = _hex n := rfl

theorem _tid_hex_eq_hex (n : Nat) : _tid_hex n = _hex n := rfl

theorem toList_mk (l : List Char) : (String.mk l).toList = l := rfl

theorem hexValList_hex (n : Nat) : hexValList (_hex n).toList = n := by
  rw [_hex_eq]
  by_cases h : n = 0
  · subst h
    decide
  · rw [if_neg h, toList_mk]
    exact hexValList_minHexChars n

theorem _hex_injective {a b : Nat} (h : _hex a = _hex b) : a = b := by
  have ha := hexValList_hex a
  have hb := hexValList_hex b
  rw [h] at ha
  omega

theorem _hex_toList (n : Nat) :
    (_hex n).toList = if n = 0 then ['0'] else minHexChars n := by
  rw [_hex_eq]
  by_cases h : n = 0
  · simp only [h, if_pos]
    rfl
  · simp [h, toList_mk]

theorem _hex_chars_subset (n : Nat) :
    ∀ c ∈ (_hex n).toList, c ∈ "0123456789abcdef".toList := by
  rw [_hex_toList]
  by_cases h : n = 0
  · rw [if_pos h]
    decide
  · rw [if_neg h]
    exact minHexChars_mem_charset n

theorem _hex_ne_nil (n : Nat) : (_hex n).toList ≠ [] := by
  rw [_hex_toList]
  by_cases h : n = 0
  · simp [h]
  · rw [if_neg h]
    obtain ⟨c, l, hcl, _⟩ := minHexChars_head_ne_zero n h
    simp [hcl]

theorem _hex_no_leading_zero (n : Nat) (h : n ≠ 0) :
    (_hex n).toList.head? ≠ some '0' := by
  rw [_hex_toList, if_neg h]
  obtain ⟨c, l, hcl, hc⟩ := minHexChars_head_ne_zero n h
  simp [hcl, hc]

theorem _hex_no_slash (n : Nat) : '/' ∉ (_hex n).toList := by
  intro hmem
  have := _hex_chars_subset n '/' hmem
  simp at this

/-! ### Canonical keys and paths

`storage._s3_key` renders the remote key, `cache._blob_path` the cache file
path (`os.path.join` of the cache directory, the oid directory and the tid
file name).
-/

def _s3_key (oid tid : Nat) : String :=
  "blobs/" ++ _oid_hex oid ++ "/" ++ _tid_hex tid ++ ".blob"

def _blob_path (cacheDir : String) (oid tid : Nat) : String :=
  cacheDir ++ "/" ++ _hex oid ++ "/" ++ _hex tid ++ ".blob"

theorem toList_append (a b : String) : (a ++ b).toList = a.toList ++ b.toList := rfl

theorem append_slash_inj {l1 r1 l2 r2 : List Char}
    (h1 : '/' ∉ l1) (h2 : '/' ∉ l2)
    (h : l1 ++ '/' :: r1 = l2 ++ '/' :: r2) : l1 = l2 ∧ r1 = r2 := by
  induction l1 generalizing l2 with
  | nil =>
      cases l2 with
      | nil => simpa using h
      | cons b bs =>
          exfalso
          have hb : b = '/' := by
            have := congrArg (fun l => l.head?) h
            simpa using this.symm
          exact h2 (by simp [hb])
  | cons a as iha =>
      cases l2 with
      | nil =>
          exfalso
          have ha : a = '/' := by
            have := congrArg (fun l => l.head?) h
            simpa using this
          exact h1 (by simp [ha])
      | cons b bs =>
          simp only [List.cons_append, List.cons.injEq] at h
          obtain ⟨hab, htail⟩ := h
          have hnas : '/' ∉ as := fun hm => h1 (List.mem_cons_of_mem _ hm)
          have hnbs : '/' ∉ bs := fun hm => h2 (List.mem_cons_of_mem _ hm)
          obtain ⟨hl, hr⟩ := iha hnas hnbs htail
          exact ⟨by rw [hab, hl], hr⟩

theorem _s3_key_inj {o1 t1 o2 t2 : Nat} (h : _s3_key o1 t1 = _s3_key o2 t2) :
    o1 = o2 ∧ t1 = t2 := by
  unfold _s3_key at h
  rw [_oid_hex_eq_hex, _oid_hex_eq_hex, _tid_hex_eq_hex, _tid_hex_eq_hex] at h
  have hl := congrArg String.toList h
  simp only [toList_append] at hl
  have hnorm : ∀ a b : Nat, "blobs/".toList ++ (_hex a).toList ++ "/".toList
      ++ (_hex b).toList ++ ".blob".toList
      = 'b' :: 'l' :: 'o' :: 'b' :: 's' :: '/'
        :: ((_hex a).toList ++ '/' :: ((_hex b).toList ++ ".blob".toList)) := by
    intro a b
    simp
  rw [hnorm, hnorm] at hl
  simp only [List.cons.injEq, true_and] at hl
  obtain ⟨hfst, hsnd⟩ := append_slash_inj (_hex_no_slash o1) (_hex_no_slash o2) hl
  have ho : o1 = o2 := _hex_injective (String.ext hfst)
  have hsnd2 : (_hex t1).toList = (_hex t2).toList := List.append_cancel_right hsnd
  have ht : t1 = t2 := _hex_injective (String.ext hsnd2)
  exact ⟨ho, ht⟩

/-! ### Parsing remote keys (`storage._oid_from_key`)

The source matches the key against the regular expression
`^blobs/([0-9a-f]+)/[0-9a-f]+\.blob$` (re.match), converts group 1 with
`int(_, 16)` and packs it with `ZODB.utils.p64`, returning None when the
value does not fit in 8 bytes (ValueError/OverflowError).  Python `$`
also matches just before one trailing newline at the end of the string, so
a key ending in `.blob` followed by a single newline is accepted as well.
-/

def isLowerHexDigit (c : Char) : Bool :=
  (decide ('0' ≤ c) && decide (c ≤ '9')) || (decide ('a' ≤ c) && decide (c ≤ 'f'))

def stripPrefixChars : List Char → List Char → Option (List Char)
  | [], cs => some cs
  | _ :: _, [] => none
  | p :: ps, c :: cs => if c = p then stripPrefixChars ps cs else none

def blobKeyMatch (key : String) : Option (List Char) :=
  match stripPrefixChars "blobs/".toList key.toList with
  | none => none
  | some rest =>
      if (rest.takeWhile isLowerHexDigit).isEmpty then none
      else
        match rest.dropWhile isLowerHexDigit with
        | '/' :: rest2 =>
            if (rest2.takeWhile isLowerHexDigit).isEmpty then none
            else if rest2.dropWhile isLowerHexDigit = ".blob".toList
                ∨ rest2.dropWhile isLowerHexDigit = ".blob\n".toList then
              some (rest.takeWhile isLowerHexDigit)
            else none
        | _ => none

def _oid_from_key (key : String) : Option Nat :=
  match blobKeyMatch key with
  | none => none
  | some g1 =>
      if hexValList g1 < 2 ^ 64 then some (hexValList g1) else none

/-! ### Coordinator state and operations (`storage.S3BlobStorage`)

`pending` models `_pending_blobs` (oid to staged path, Python dict in
insertion order), `staged` the contents of the staging/temporary directory
(path to file content), `uploaded` models `_uploaded_keys`, `cache` the
cache directory (file path to content) and `remote` the S3 bucket (key to
object content).  Fallible external calls are parameterised by boolean
failure oracles collected in `Env`; a `true` oracle answer means the call
raises.  Exceptions that the source lets propagate become `Except.error`
or a `true` flag in the result; exceptions the source catches become
state-preserving branches.
-/

structure BlobState where
  pending : List (Nat × String)
  staged : List (String × String)
  uploaded : List (Nat × Nat × String)
  cache : List (String × String)
  remote : List (String × String)
deriving DecidableEq

structure Env where
  cdir : String
  uploadFails : String → Bool
  deleteFails : String → Bool
  headFails : String → Bool
  downloadFails : String → Bool
  putFails : Nat → Nat → Bool

def noFailEnv (cdir : String) : Env :=
  ⟨cdir, fun _ => false, fun _ => false, fun _ => false, fun _ => false, fun _ _ => false⟩

def stagedName (oid : Nat) : String := _oid_hex oid ++ ".blob"

def dlTmpName (oid : Nat) : String := "dl_" ++ _oid_hex oid ++ ".tmp"

def storeBlob (oid : Nat) (content : String) (s : BlobState) : BlobState :=
  { s with staged := insertA s.staged (stagedName oid) content,
           pending := insertA s.pending oid (stagedName oid) }

inductive LoadErr where
  | posKeyError (oid serial : Nat)
  | s3OperationError
  | cachePutError
deriving DecidableEq

def loadBlobRemote (env : Env) (oid serial : Nat) (s : BlobState) :
    Except LoadErr (BlobState × String × String) :=
  if env.headFails (_s3_key oid serial) then Except.error LoadErr.s3OperationError
  else
    match lookupA s.remote (_s3_key oid serial) with
    | none => Except.error (LoadErr.posKeyError oid serial)
    | some c =>
        if env.downloadFails (_s3_key oid serial) then Except.error LoadErr.s3OperationError
        else if env.putFails oid serial then Except.error LoadErr.cachePutError
        else
          Except.ok
            ({ s with cache := insertA s.cache (_blob_path env.cdir oid serial) c,
                      staged := removeA (insertA s.staged (dlTmpName oid) c) (dlTmpName oid) },
             _blob_path env.cdir oid serial, c)

def loadBlobCached (env : Env) (oid serial : Nat) (s : BlobState) :
    Except LoadErr (BlobState × String × String) :=
  match lookupA s.cache (_blob_path env.cdir oid serial) with
  | some c => Except.ok (s, _blob_path env.cdir oid serial, c)
  | none => loadBlobRemote env oid serial s

def loadBlob (env : Env) (oid serial : Nat) (s : BlobState) :
    Except LoadErr (BlobState × String × String) :=
  match lookupA s.pending oid with
  | some path =>
      match lookupA s.staged path with
      | some c => Except.ok (s, path, c)
      | none => loadBlobCached env oid serial s
  | none => loadBlobCached env oid serial s

def voteLoop (env : Env) (tid : Nat) : BlobState → List (Nat × String) → BlobState × Bool
  | s, [] => (s, false)
  | s, (oid, path) :: rest =>
      match (if env.uploadFails (_s3_key oid tid) then none else lookupA s.staged path) with
      | none => (s, true)
      | some c =>
          voteLoop env tid
            { s with remote := insertA s.remote (_s3_key oid tid) c,
                     uploaded := s.uploaded ++ [(oid, tid, _s3_key oid tid)] } rest

def tpc_vote (env : Env) (tid : Nat) (s : BlobState) : BlobState × Bool :=
  voteLoop env tid s s.pending

def finishStep (env : Env) (tid : Nat) (s : BlobState) (pr : Nat × String) : BlobState :=
  let s1 :=
    match (if env.putFails pr.1 tid then none else lookupA s.staged pr.2) with
    | none => s
    | some c => { s with cache := insertA s.cache (_blob_path env.cdir pr.1 tid) c }
  { s1 with staged := removeA s1.staged pr.2 }

def tpc_finish (env : Env) (tid : Nat) (s : BlobState) : Nat × BlobState :=
  let s1 := s.pending.foldl (finishStep env tid) s
  (tid, { s1 with pending := [], uploaded := [] })

def abortDeleteStep (env : Env) (s : BlobState) (r : Nat × Nat × String) : BlobState :=
  if env.deleteFails r.2.2 then s else { s with remote := removeA s.remote r.2.2 }

def abortStageStep (s : BlobState) (pr : Nat × String) : BlobState :=
  { s with staged := removeA s.staged pr.2 }

def tpc_abort (env : Env) (s : BlobState) : BlobState :=
  let s1 := s.uploaded.foldl (abortDeleteStep env) s
  let s2 := s.pending.foldl abortStageStep s1
  { s2 with pending := [], uploaded := [] }

def startsWithChars (pfx k : String) : Bool :=
  pfx.toList.isPrefixOf k.toList

def list_objects (s : BlobState) (pfx : String) : List String :=
  (s.remote.map Prod.fst).filter (fun k => startsWithChars pfx k)

def packStep (env : Env) (reachable : Nat → Bool) (s : BlobState) (key : String) : BlobState :=
  match _oid_from_key key with
  | none => s
  | some oid =>
      if reachable oid then s
      else if env.deleteFails key then s
      else { s with remote := removeA s.remote key }

def pack (env : Env) (reachable : Nat → Bool) (s : BlobState) : BlobState :=
  (list_objects s "blobs/").foldl (packStep env reachable) s

/-! ### Bounded blob cache cleanup (`cache.S3BlobCache._cleanup`, `current_size`)

The cache directory is modelled as a list of files with name, access time
and size.  `_cleanup` walks the tree collecting `.blob` files whose `stat`
succeeds, sums their sizes, returns immediately if the total does not
exceed `max_size`, and otherwise deletes files in ascending atime order
while the running total exceeds the target, skipping (and swallowing the
error of) any file whose removal fails.  The function returns the list of
files it removed.
-/

structure CFile where
  name : String
  atime : Nat
  size : Nat
deriving DecidableEq

def endsWithChars (sfx k : String) : Bool :=
  sfx.toList.isSuffixOf k.toList

def scanFiles (statFails : String → Bool) (fs : List CFile) : List CFile :=
  fs.filter (fun f => endsWithChars ".blob" f.name && ! statFails f.name)

def sortByAtime (fs : List CFile) : List CFile :=
  fs.insertionSort (fun a b => a.atime ≤ b.atime)

def evictLoop (removeFails : String → Bool) (target : Nat) :
    Nat → List CFile → List CFile
  | _, [] => []
  | total, f :: rest =>
      if total ≤ target then []
      else if removeFails f.name then evictLoop removeFails target total rest
      else f :: evictLoop removeFails target (total - f.size) rest

def _cleanup (maxSize target : Nat) (statFails removeFails : String → Bool)
    (fs : List CFile) : List CFile :=
  if ((scanFiles statFails fs).map CFile.size).sum ≤ maxSize then []
  else
    evictLoop removeFails target ((scanFiles statFails fs).map CFile.size).sum
      (sortByAtime (scanFiles statFails fs))

def _target_size (maxSize : Nat) : Nat := 9 * maxSize / 10

def current_size (sizeFails : String → Bool) (fs : List CFile) : Nat :=
  ((fs.filter (fun f => endsWithChars ".blob" f.name && ! sizeFails f.name)).map CFile.size).sum

/-! ### Supporting lemmas for the claims -/

theorem removeA_insertA {α β : Type} [DecidableEq α]
    (l : List (α × β)) (k : α) (v : β) :
    removeA (insertA l k v) k = removeA l k := by
  induction l with
  | nil => simp [insertA, removeA]
  | cons p rest ih =>
      obtain ⟨k1, v1⟩ := p
      by_cases h : k1 = k
      · simp [insertA, h, removeA, List.filter_cons]
      · simp [insertA, h, removeA, List.filter_cons] at ih ⊢
        exact ih

theorem finishStep_staged_none (env : Env) (tid : Nat) (s : BlobState)
    (pr : Nat × String) {p : String} (h : lookupA s.staged p = none) :
    lookupA (finishStep env tid s pr).staged p = none := by
  unfold finishStep
  by_cases hp : p = pr.2
  · subst hp
    cases hm : (if env.putFails pr.1 tid then none else lookupA s.staged pr.2) <;>
      simp [hm, lookupA_removeA_self]
  · cases hm : (if env.putFails pr.1 tid then none else lookupA s.staged pr.2) <;>
      simp [hm, lookupA_removeA_ne _ hp, h]

theorem finishStep_removes_own (env : Env) (tid : Nat) (s : BlobState)
    (pr : Nat × String) :
    lookupA (finishStep env tid s pr).staged pr.2 = none := by
  unfold finishStep
  cases hm : (if env.putFails pr.1 tid then none else lookupA s.staged pr.2) <;>
    simp [hm, lookupA_removeA_self]

theorem foldl_finishStep_staged_none (env : Env) (tid : Nat) :
    ∀ (l : List (Nat × String)) (s : BlobState) (p : String),
      lookupA s.staged p = none →
      lookupA (l.foldl (finishStep env tid) s).staged p = none := by
  intro l
  induction l with
  | nil => intro s p h; simpa using h
  | cons pr rest ih =>
      intro s p h
      exact ih (finishStep env tid s pr) p (finishStep_staged_none env tid s pr h)

theorem foldl_finishStep_processed (env : Env) (tid : Nat) :
    ∀ (l : List (Nat × String)) (s : BlobState) (pr : Nat × String),
      pr ∈ l → lookupA (l.foldl (finishStep env tid) s).staged pr.2 = none := by
  intro l
  induction l with
  | nil => intro s pr h; cases h
  | cons pr0 rest ih =>
      intro s pr h
      rcases List.mem_cons.mp h with heq | hmem
      · subst heq
        exact foldl_finishStep_staged_none env tid rest _ _
          (finishStep_removes_own env tid s pr)
      · exact ih _ pr hmem

theorem foldl_abortDelete_remote_none (env : Env) :
    ∀ (l : List (Nat × Nat × String)) (s : BlobState) (k : String),
      lookupA s.remote k = none →
      lookupA (l.foldl (abortDeleteStep env) s).remote k = none := by
  intro l
  induction l with
  | nil => intro s k h; simpa using h
  | cons r rest ih =>
      intro s k h
      refine ih _ k ?_
      unfold abortDeleteStep
      by_cases hd : env.deleteFails r.2.2
      · simpa [hd] using h
      · by_cases hk : k = r.2.2
        · subst hk
          simp [hd, lookupA_removeA_self]
        · simp [hd, lookupA_removeA_ne _ hk, h]

theorem foldl_abortDelete_removes (env : Env) :
    ∀ (l : List (Nat × Nat × String)) (s : BlobState) (r : Nat × Nat × String),
      r ∈ l → env.deleteFails r.2.2 = false →
      lookupA (l.foldl (abortDeleteStep env) s).remote r.2.2 = none := by
  intro l
  induction l with
  | nil => intro s r h; cases h
  | cons r0 rest ih =>
      intro s r h hdel
      rcases List.mem_cons.mp h with heq | hmem
      · subst heq
        refine foldl_abortDelete_remote_none env rest _ _ ?_
        unfold abortDeleteStep
        simp [hdel, lookupA_removeA_self]
      · exact ih _ r hmem hdel

theorem foldl_abortDelete_staged (env : Env) :
    ∀ (l : List (Nat × Nat × String)) (s : BlobState),
      (l.foldl (abortDeleteStep env) s).staged = s.staged := by
  intro l
  induction l with
  | nil => intro s; rfl
  | cons r rest ih =>
      intro s
      rw [List.foldl_cons, ih]
      unfold abortDeleteStep
      by_cases hd : env.deleteFails r.2.2 <;> simp [hd]

theorem foldl_abortStage_remote :
    ∀ (l : List (Nat × String)) (s : BlobState),
      (l.foldl abortStageStep s).remote = s.remote := by
  intro l
  induction l with
  | nil => intro s; rfl
  | cons pr rest ih =>
      intro s
      rw [List.foldl_cons, ih]
      rfl

theorem foldl_abortStage_staged_none :
    ∀ (l : List (Nat × String)) (s : BlobState) (p : String),
      lookupA s.staged p = none →
      lookupA (l.foldl abortStageStep s).staged p = none := by
  intro l
  induction l with
  | nil => intro s p h; simpa using h
  | cons pr rest ih =>
      intro s p h
      refine ih _ p ?_
      unfold abortStageStep
      by_cases hp : p = pr.2
      · subst hp
        simp [lookupA_removeA_self]
      · simp [lookupA_removeA_ne _ hp, h]

theorem foldl_abortStage_processed :
    ∀ (l : List (Nat × String)) (s : BlobState) (pr : Nat × String),
      pr ∈ l → lookupA (l.foldl abortStageStep s).staged pr.2 = none := by
  intro l
  induction l with
  | nil => intro s pr h; cases h
  | cons pr0 rest ih =>
      intro s pr h
      rcases List.mem_cons.mp h with heq | hmem
      · subst heq
        refine foldl_abortStage_staged_none rest _ _ ?_
        unfold abortStageStep
        simp [lookupA_removeA_self]
      · exact ih _ pr hmem

/-! ### The claims -/

/-- C8: key rendering is bit-exact.  All three hex helpers agree; the
rendered identifier is nonempty lowercase hexadecimal that evaluates back
to the identifier, has no leading zero (with "0" for the all-zero
identifier); cache paths are `{cache_root}/{oid_hex}/{tid_hex}.blob`, and
remote keys are `blobs/{oid_hex}/{tid_hex}.blob`, both built from the same
hex rendering. -/
theorem claim_C8 :
    (∀ n, _oid_hex n = _hex n ∧ _tid_hex n = _hex n) ∧
    _hex 0 = "0" ∧
    (∀ n, (_hex n).toList ≠ [] ∧ hexValList (_hex n).toList = n ∧
      ∀ c ∈ (_hex n).toList, c ∈ "0123456789abcdef".toList) ∧
    (∀ n, n ≠ 0 → (_hex n).toList.head? ≠ some '0') ∧
    (∀ cdir oid tid, _blob_path cdir oid tid
        = cdir ++ "/" ++ _hex oid ++ "/" ++ _hex tid ++ ".blob") ∧
    (∀ oid tid, _s3_key oid tid = "blobs/" ++ _hex oid ++ "/" ++ _hex tid ++ ".blob") := by
  refine ⟨fun n => ⟨rfl, rfl⟩, by decide, ?_, ?_, fun cdir oid tid => rfl, fun oid tid => rfl⟩
  · intro n
    exact ⟨_hex_ne_nil n, hexValList_hex n, _hex_chars_subset n⟩
  · intro n hn
    exact _hex_no_leading_zero n hn

theorem claim_C8_witness :
    (3 : Nat) ≠ 0 ∧ (_hex 3).toList.head? ≠ some '0' :=
  ⟨by decide, claim_C8.2.2.2.1 3 (by decide)⟩

/-- C2: `tpc_finish` returns the base tid and never raises from cache
population: for every choice of the cache-insert failure oracle the
function completes, the staged file of every pending blob is removed, and
the pending map and upload-record list are cleared unconditionally.  The
universal quantification over `env` covers in particular every pattern of
`cache.put` failures, which are caught inside `tpc_finish`. -/
theorem claim_C2 (env : Env) (tid : Nat) (s : BlobState) :
    (tpc_finish env tid s).1 = tid ∧
    (tpc_finish env tid s).2.pending = [] ∧
    (tpc_finish env tid s).2.uploaded = [] ∧
    ∀ pr ∈ s.pending, lookupA (tpc_finish env tid s).2.staged pr.2 = none := by
  refine ⟨rfl, rfl, rfl, ?_⟩
  intro pr hpr
  exact foldl_finishStep_processed env tid s.pending s pr hpr

theorem claim_C2_witness :
    ((1, "1.blob") ∈ (⟨[(1, "1.blob")], [("1.blob", "x")], [], [], []⟩ : BlobState).pending) ∧
    lookupA (tpc_finish (noFailEnv "c") 2
      (⟨[(1, "1.blob")], [("1.blob", "x")], [], [], []⟩ : BlobState)).2.staged "1.blob" = none :=
  ⟨by decide,
   (claim_C2 (noFailEnv "c") 2
     (⟨[(1, "1.blob")], [("1.blob", "x")], [], [], []⟩ : BlobState)).2.2.2
     (1, "1.blob") (by decide)⟩

/-- C3: `tpc_abort` deletes the remote object of every upload record whose
individual delete succeeds (independent of the outcome for any other
record, since the oracle is only constrained at that one key), removes
every staged file of the pending map, never raises (it is total for every
oracle), and clears the pending map and upload-record list
unconditionally. -/
theorem claim_C3 (env : Env) (s : BlobState) :
    (tpc_abort env s).pending = [] ∧
    (tpc_abort env s).uploaded = [] ∧
    (∀ pr ∈ s.pending, lookupA (tpc_abort env s).staged pr.2 = none) ∧
    (∀ r ∈ s.uploaded, env.deleteFails r.2.2 = false →
      lookupA (tpc_abort env s).remote r.2.2 = none) := by
  refine ⟨rfl, rfl, ?_, ?_⟩
  · intro pr hpr
    show lookupA (s.pending.foldl abortStageStep
      (s.uploaded.foldl (abortDeleteStep env) s)).staged pr.2 = none
    exact foldl_abortStage_processed s.pending _ pr hpr
  · intro r hr hdel
    show lookupA (s.pending.foldl abortStageStep
      (s.uploaded.foldl (abortDeleteStep env) s)).remote r.2.2 = none
    rw [foldl_abortStage_remote]
    exact foldl_abortDelete_removes env s.uploaded s r hr hdel

theorem claim_C3_witness :
    ((1, 2, "blobs/1/2.blob") ∈
      (⟨[], [], [(1, 2, "blobs/1/2.blob")], [], [("blobs/1/2.blob", "x")]⟩ : BlobState).uploaded) ∧
    (noFailEnv "c").deleteFails "blobs/1/2.blob" = false ∧
    lookupA (tpc_abort (noFailEnv "c")
      (⟨[], [], [(1, 2, "blobs/1/2.blob")], [], [("blobs/1/2.blob", "x")]⟩ : BlobState)).remote
      "blobs/1/2.blob" = none :=
  ⟨by decide, by decide,
   (claim_C3 (noFailEnv "c")
     (⟨[], [], [(1, 2, "blobs/1/2.blob")], [], [("blobs/1/2.blob", "x")]⟩ : BlobState)).2.2.2
     (1, 2, "blobs/1/2.blob") (by decide) (by decide)⟩

/-- C5: read tiering and not-found behaviour of `loadBlob`.  The staged
pending file wins for any serial; otherwise the cache path is returned on a
cache hit; otherwise the blob is downloaded from the remote store, inserted
into the cache, the temporary download file is removed and the cache path
is returned.  A typed `POSKeyError` carrying exactly `(oid, serial)` is
raised precisely when staging, cache and remote all miss (remote head
answering not-found), while a failing remote head or download raises the
wrapped `S3OperationError`, never the not-found error. -/
theorem claim_C5 (env : Env) (oid serial : Nat) (s : BlobState) :
    (∀ p c, lookupA s.pending oid = some p → lookupA s.staged p = some c →
      loadBlob env oid serial s = Except.ok (s, p, c)) ∧
    ((∀ p, lookupA s.pending oid = some p → lookupA s.staged p = none) →
      (∀ c, lookupA s.cache (_blob_path env.cdir oid serial) = some c →
        loadBlob env oid serial s = Except.ok (s, _blob_path env.cdir oid serial, c)) ∧
      (lookupA s.cache (_blob_path env.cdir oid serial) = none →
        (env.headFails (_s3_key oid serial) = true →
          loadBlob env oid serial s = Except.error LoadErr.s3OperationError) ∧
        (env.headFails (_s3_key oid serial) = false →
          (lookupA s.remote (_s3_key oid serial) = none →
            loadBlob env oid serial s = Except.error (LoadErr.posKeyError oid serial)) ∧
          (∀ c, lookupA s.remote (_s3_key oid serial) = some c →
            (env.downloadFails (_s3_key oid serial) = true →
              loadBlob env oid serial s = Except.error LoadErr.s3OperationError) ∧
            (env.downloadFails (_s3_key oid serial) = false →
              env.putFails oid serial = false →
              loadBlob env oid serial s = Except.ok
                ({ s with
                    cache := insertA s.cache (_blob_path env.cdir oid serial) c,
                    staged := removeA s.staged (dlTmpName oid) },
                  _blob_path env.cdir oid serial, c)))))) ∧
    (∀ o t, loadBlob env oid serial s = Except.error (LoadErr.posKeyError o t) →
      o = oid ∧ t = serial ∧
      (∀ p, lookupA s.pending oid = some p → lookupA s.staged p = none) ∧
      lookupA s.cache (_blob_path env.cdir oid serial) = none ∧
      env.headFails (_s3_key oid serial) = false ∧
      lookupA s.remote (_s3_key oid serial) = none) := by
  refine ⟨?_, ?_, ?_⟩
  · intro p c hp hc
    simp only [loadBlob, hp, hc]
  · intro hmiss
    have hstep : loadBlob env oid serial s = loadBlobCached env oid serial s := by
      unfold loadBlob
      cases hp : lookupA s.pending oid with
      | none => rfl
      | some p => simp only [hmiss p hp]
    refine ⟨?_, ?_⟩
    · intro c hc
      rw [hstep]
      simp only [loadBlobCached, hc]
    · intro hc
      refine ⟨?_, ?_⟩
      · intro hh
        rw [hstep]
        simp only [loadBlobCached, hc, loadBlobRemote, hh, if_true]
      · intro hh
        refine ⟨?_, ?_⟩
        · intro hr
          rw [hstep]
          simp only [loadBlobCached, hc, loadBlobRemote, hh, hr]
          rfl
        · intro c hr
          refine ⟨?_, ?_⟩
          · intro hd
            rw [hstep]
            simp only [loadBlobCached, hc, loadBlobRemote, hh, hr, hd]
            rfl
          · intro hd hq
            rw [hstep]
            simp only [loadBlobCached, hc, loadBlobRemote, hh, hr, hd, hq]
            simp [removeA_insertA]
  · intro o t herr
    by_cases hpend : ∀ p, lookupA s.pending oid = some p → lookupA s.staged p = none
    · have hstep : loadBlob env oid serial s = loadBlobCached env oid serial s := by
        unfold loadBlob
        cases hp : lookupA s.pending oid with
        | none => rfl
        | some p => simp only [hpend p hp]
      rw [hstep] at herr
      cases hc : lookupA s.cache (_blob_path env.cdir oid serial) with
      | some c => simp [loadBlobCached, hc] at herr
      | none =>
          simp only [loadBlobCached, hc] at herr
          cases hh : env.headFails (_s3_key oid serial) with
          | true => simp [loadBlobRemote, hh] at herr
          | false =>
              cases hr : lookupA s.remote (_s3_key oid serial) with
              | some c =>
                  simp only [loadBlobRemote, hh, hr] at herr
                  cases hd : env.downloadFails (_s3_key oid serial) <;>
                    cases hq : env.putFails oid serial <;>
                    simp [hd, hq] at herr
              | none =>
                  simp only [loadBlobRemote, hh, hr, Bool.false_eq_true, if_false,
                    ite_false] at herr
                  have hinj : oid = o ∧ serial = t := by
                    simpa using herr
                  exact ⟨hinj.1.symm, hinj.2.symm, hpend, rfl, rfl, rfl⟩
    · push_neg at hpend
      obtain ⟨p, hp, hne⟩ := hpend
      cases hcs : lookupA s.staged p with
      | none => exact absurd hcs hne
      | some c => simp [loadBlob, hp, hcs] at herr

theorem claim_C5_witness :
    lookupA (⟨[(1, "1.blob")], [("1.blob", "x")], [], [], []⟩ : BlobState).pending 1
      = some "1.blob" ∧
    lookupA (⟨[(1, "1.blob")], [("1.blob", "x")], [], [], []⟩ : BlobState).staged "1.blob"
      = some "x" ∧
    loadBlob (noFailEnv "c") 1 2 (⟨[(1, "1.blob")], [("1.blob", "x")], [], [], []⟩ : BlobState)
      = Except.ok ((⟨[(1, "1.blob")], [("1.blob", "x")], [], [], []⟩ : BlobState), "1.blob", "x") :=
  ⟨by decide, by decide,
   (claim_C5 (noFailEnv "c") 1 2
     (⟨[(1, "1.blob")], [("1.blob", "x")], [], [], []⟩ : BlobState)).1
     "1.blob" "x" (by decide) (by decide)⟩

theorem voteLoop_success (env : Env) (tid : Nat) :
    ∀ (l : List (Nat × String)) (s : BlobState),
      (l.map Prod.fst).Nodup →
      (∀ pr ∈ l, env.uploadFails (_s3_key pr.1 tid) = false) →
      (∀ pr ∈ l, (lookupA s.staged pr.2).isSome = true) →
      (voteLoop env tid s l).2 = false ∧
      (voteLoop env tid s l).1.staged = s.staged ∧
      (voteLoop env tid s l).1.uploaded
        = s.uploaded ++ l.map (fun pr => (pr.1, tid, _s3_key pr.1 tid)) ∧
      (∀ k, (∀ pr ∈ l, k ≠ _s3_key pr.1 tid) →
        lookupA (voteLoop env tid s l).1.remote k = lookupA s.remote k) ∧
      (∀ pr ∈ l, lookupA (voteLoop env tid s l).1.remote (_s3_key pr.1 tid)
        = lookupA s.staged pr.2) := by
  intro l
  induction l with
  | nil =>
      intro s _ _ _
      refine ⟨rfl, rfl, by simp [voteLoop], fun k _ => rfl, fun pr hpr => absurd hpr (by simp)⟩
  | cons hd rest ih =>
      obtain ⟨o, p⟩ := hd
      intro s hnd hu hstg
      have hu0 : env.uploadFails (_s3_key o tid) = false := hu (o, p) (by simp)
      have hs0 : (lookupA s.staged p).isSome = true := hstg (o, p) (by simp)
      obtain ⟨c, hc⟩ := Option.isSome_iff_exists.mp hs0
      have hstep : voteLoop env tid s ((o, p) :: rest)
          = voteLoop env tid (⟨s.pending, s.staged, s.uploaded ++ [(o, tid, _s3_key o tid)], s.cache, insertA s.remote (_s3_key o tid) c⟩ : BlobState) rest := by
        simp only [voteLoop, hu0, Bool.false_eq_true, if_false, ite_false, hc]
      have hnd' : (rest.map Prod.fst).Nodup := (List.nodup_cons.mp (by simpa using hnd)).2
      have hnotin : o ∉ rest.map Prod.fst := (List.nodup_cons.mp (by simpa using hnd)).1
      have hu' : ∀ pr ∈ rest, env.uploadFails (_s3_key pr.1 tid) = false :=
        fun pr hpr => hu pr (List.mem_cons_of_mem _ hpr)
      obtain ⟨hflag, hstaged, hupl, hframe, hcont⟩ :=
        ih (⟨s.pending, s.staged, s.uploaded ++ [(o, tid, _s3_key o tid)], s.cache, insertA s.remote (_s3_key o tid) c⟩ : BlobState)
          hnd' hu' (fun pr hpr => hstg pr (List.mem_cons_of_mem _ hpr))
      have hkeys : ∀ pr ∈ rest, _s3_key o tid ≠ _s3_key pr.1 tid := by
        intro pr hpr heq
        exact hnotin (by
          have h2 := (_s3_key_inj heq).1
          rw [h2]
          exact List.mem_map_of_mem Prod.fst hpr)
      refine ⟨by rw [hstep]; exact hflag, by rw [hstep]; exact hstaged, ?_, ?_, ?_⟩
      · rw [hstep, hupl]
        simp
      · intro k hk
        rw [hstep, hframe k (fun pr hpr => hk pr (List.mem_cons_of_mem _ hpr))]
        exact lookupA_insertA_ne _ _ (hk (o, p) (by simp))
      · intro pr hpr
        rcases List.mem_cons.mp hpr with heq | hmem
        · subst heq
          rw [hstep, hframe _ hkeys]
          simp only [lookupA_insertA_self]
          exact hc.symm
        · rw [hstep]
          exact hcont pr hmem
theorem voteLoop_fail (env : Env) (tid : Nat) :
    ∀ (pre : List (Nat × String)) (s : BlobState) (oid0 : Nat) (p0 : String)
      (post : List (Nat × String)),
      (∀ pr ∈ pre, env.uploadFails (_s3_key pr.1 tid) = false ∧
        (lookupA s.staged pr.2).isSome = true) →
      (env.uploadFails (_s3_key oid0 tid) = true ∨ lookupA s.staged p0 = none) →
      (voteLoop env tid s (pre ++ (oid0, p0) :: post)).2 = true ∧
      (voteLoop env tid s (pre ++ (oid0, p0) :: post)).1.uploaded
        = s.uploaded ++ pre.map (fun pr => (pr.1, tid, _s3_key pr.1 tid)) := by
  intro pre
  induction pre with
  | nil =>
      intro s oid0 p0 post _ hfail
      rcases hfail with hup | hstg
      · simp [voteLoop, hup]
      · cases hup : env.uploadFails (_s3_key oid0 tid) <;>
          simp [voteLoop, hup, hstg]
  | cons hd pre' ih =>
      obtain ⟨o, p⟩ := hd
      intro s oid0 p0 post hpre hfail
      have hu0 : env.uploadFails (_s3_key o tid) = false := (hpre (o, p) (by simp)).1
      obtain ⟨c, hc⟩ := Option.isSome_iff_exists.mp (hpre (o, p) (by simp)).2
      have hstep : voteLoop env tid s (((o, p) :: pre') ++ (oid0, p0) :: post)
          = voteLoop env tid (⟨s.pending, s.staged, s.uploaded ++ [(o, tid, _s3_key o tid)], s.cache, insertA s.remote (_s3_key o tid) c⟩ : BlobState)
            (pre' ++ (oid0, p0) :: post) := by
        simp only [List.cons_append, voteLoop, hu0, Bool.false_eq_true, if_false,
          ite_false, hc]
        rfl
      obtain ⟨hflag, hupl⟩ :=
        ih (⟨s.pending, s.staged, s.uploaded ++ [(o, tid, _s3_key o tid)], s.cache, insertA s.remote (_s3_key o tid) c⟩ : BlobState)
          oid0 p0 post (fun pr hpr => hpre pr (List.mem_cons_of_mem _ hpr)) hfail
      refine ⟨by rw [hstep]; exact hflag, ?_⟩
      rw [hstep, hupl]
      simp

/-- C6: vote contract.  When every upload succeeds, `tpc_vote` uploads each
pending staged blob to the remote store under its canonical key and appends
one upload record per blob, in order; when the upload of one pending blob
fails, the exception propagates out of `tpc_vote` (flag `true`) and the
upload-record list contains exactly the records of the uploads completed
before the failure. -/
theorem claim_C6 (env : Env) (tid : Nat) (s : BlobState) :
    ((s.pending.map Prod.fst).Nodup →
      (∀ pr ∈ s.pending, env.uploadFails (_s3_key pr.1 tid) = false) →
      (∀ pr ∈ s.pending, (lookupA s.staged pr.2).isSome = true) →
      (tpc_vote env tid s).2 = false ∧
      (tpc_vote env tid s).1.uploaded
        = s.uploaded ++ s.pending.map (fun pr => (pr.1, tid, _s3_key pr.1 tid)) ∧
      (∀ pr ∈ s.pending,
        lookupA (tpc_vote env tid s).1.remote (_s3_key pr.1 tid) = lookupA s.staged pr.2)) ∧
    (∀ pre oid0 p0 post, s.pending = pre ++ (oid0, p0) :: post →
      (∀ pr ∈ pre, env.uploadFails (_s3_key pr.1 tid) = false ∧
        (lookupA s.staged pr.2).isSome = true) →
      (env.uploadFails (_s3_key oid0 tid) = true ∨ lookupA s.staged p0 = none) →
      (tpc_vote env tid s).2 = true ∧
      (tpc_vote env tid s).1.uploaded
        = s.uploaded ++ pre.map (fun pr => (pr.1, tid, _s3_key pr.1 tid))) := by
  constructor
  · intro hnd hu hstg
    obtain ⟨hflag, _, hupl, _, hcont⟩ := voteLoop_success env tid s.pending s hnd hu hstg
    exact ⟨hflag, hupl, hcont⟩
  · intro pre oid0 p0 post hpend hpre hfail
    have := voteLoop_fail env tid pre s oid0 p0 post hpre hfail
    unfold tpc_vote
    rw [hpend]
    exact this

def stateA : BlobState := ⟨[(1, "1.blob")], [("1.blob", "x")], [], [], []⟩

theorem claim_C6_witness :
    ((stateA.pending.map Prod.fst).Nodup) ∧
    (∀ pr ∈ stateA.pending, (noFailEnv "c").uploadFails (_s3_key pr.1 2) = false) ∧
    (∀ pr ∈ stateA.pending, (lookupA stateA.staged pr.2).isSome = true) ∧
    ((tpc_vote (noFailEnv "c") 2 stateA).2 = false ∧
      (tpc_vote (noFailEnv "c") 2 stateA).1.uploaded
        = stateA.uploaded ++ stateA.pending.map (fun pr => (pr.1, 2, _s3_key pr.1 2)) ∧
      (∀ pr ∈ stateA.pending,
        lookupA (tpc_vote (noFailEnv "c") 2 stateA).1.remote (_s3_key pr.1 2)
          = lookupA stateA.staged pr.2)) :=
  ⟨by decide, by decide, by decide,
   (claim_C6 (noFailEnv "c") 2 stateA).1 (by decide) (by decide) (by decide)⟩

def packRemoves (env : Env) (reachable : Nat → Bool) (k : String) : Bool :=
  match _oid_from_key k with
  | none => false
  | some oid => !reachable oid && !env.deleteFails k

theorem packStep_eq (env : Env) (reachable : Nat → Bool) (s : BlobState) (k : String) :
    packStep env reachable s k
      = if packRemoves env reachable k = true then (⟨s.pending, s.staged, s.uploaded, s.cache, removeA s.remote k⟩ : BlobState) else s := by
  unfold packStep packRemoves
  cases ho : _oid_from_key k with
  | none => simp
  | some oid => cases hr : reachable oid <;> cases hd : env.deleteFails k <;> simp [hr, hd]

theorem packStep_lookup_preserved (env : Env) (reachable : Nat → Bool)
    (s : BlobState) (k0 k : String) (h : packRemoves env reachable k = false) :
    lookupA (packStep env reachable s k0).remote k = lookupA s.remote k := by
  rw [packStep_eq]
  cases hr : packRemoves env reachable k0 with
  | false => simp
  | true =>
      by_cases hk : k = k0
      · subst hk
        rw [h] at hr
        cases hr
      · simp [lookupA_removeA_ne _ hk]

theorem packStep_lookup_none (env : Env) (reachable : Nat → Bool)
    (s : BlobState) (k0 k : String) (h : lookupA s.remote k = none) :
    lookupA (packStep env reachable s k0).remote k = none := by
  rw [packStep_eq]
  cases hr : packRemoves env reachable k0 with
  | false => simpa using h
  | true =>
      by_cases hk : k = k0
      · subst hk
        simp [lookupA_removeA_self]
      · simp [lookupA_removeA_ne _ hk, h]

theorem foldl_packStep_preserved (env : Env) (reachable : Nat → Bool) :
    ∀ (l : List String) (s : BlobState) (k : String),
      packRemoves env reachable k = false →
      lookupA (l.foldl (packStep env reachable) s).remote k = lookupA s.remote k := by
  intro l
  induction l with
  | nil => intro s k _; rfl
  | cons k0 rest ih =>
      intro s k h
      rw [List.foldl_cons, ih _ k h, packStep_lookup_preserved env reachable s k0 k h]

theorem foldl_packStep_none (env : Env) (reachable : Nat → Bool) :
    ∀ (l : List String) (s : BlobState) (k : String),
      lookupA s.remote k = none →
      lookupA (l.foldl (packStep env reachable) s).remote k = none := by
  intro l
  induction l with
  | nil => intro s k h; simpa using h
  | cons k0 rest ih =>
      intro s k h
      rw [List.foldl_cons]
      exact ih _ k (packStep_lookup_none env reachable s k0 k h)

theorem foldl_packStep_removes (env : Env) (reachable : Nat → Bool) :
    ∀ (l : List String) (s : BlobState) (k : String),
      k ∈ l → packRemoves env reachable k = true →
      lookupA (l.foldl (packStep env reachable) s).remote k = none := by
  intro l
  induction l with
  | nil => intro s k h; cases h
  | cons k0 rest ih =>
      intro s k h hrem
      rcases List.mem_cons.mp h with heq | hmem
      · subst heq
        rw [List.foldl_cons]
        refine foldl_packStep_none env reachable rest _ k ?_
        rw [packStep_eq, if_pos hrem]
        simp [lookupA_removeA_self]
      · rw [List.foldl_cons]
        exact ih _ k hmem hrem

theorem stripPrefixChars_eq_append :
    ∀ (p l r : List Char), stripPrefixChars p l = some r → l = p ++ r := by
  intro p
  induction p with
  | nil =>
      intro l r h
      simpa [stripPrefixChars] using h
  | cons a ps ih =>
      intro l r h
      cases l with
      | nil => cases h
      | cons c cs =>
          by_cases hc : c = a
          · subst hc
            simp only [stripPrefixChars, if_pos rfl] at h
            simp [ih cs r h]
          · simp [stripPrefixChars, hc] at h

theorem oid_from_key_startsWith {k : String} {oid : Nat}
    (h : _oid_from_key k = some oid) : startsWithChars "blobs/" k = true := by
  unfold _oid_from_key at h
  cases hm : blobKeyMatch k with
  | none => rw [hm] at h; cases h
  | some g =>
      unfold blobKeyMatch at hm
      cases hs : stripPrefixChars "blobs/".toList k.toList with
      | none => rw [hs] at hm; cases hm
      | some rest =>
          have hk := stripPrefixChars_eq_append _ _ _ hs
          unfold startsWithChars
          rw [hk]
          exact List.isPrefixOf_iff_prefix.mpr (List.prefix_append _ _)

theorem mem_list_objects {s : BlobState} {k : String} {c : String} {oid : Nat}
    (hc : lookupA s.remote k = some c) (ho : _oid_from_key k = some oid) :
    k ∈ list_objects s "blobs/" := by
  unfold list_objects
  refine List.mem_filter.mpr ⟨?_, oid_from_key_startsWith ho⟩
  exact (lookupA_isSome_iff_mem s.remote k).mp (by simp [hc])

/-- C7 (amended): garbage collection during pack.  Every listed remote key
that the source regular expression does not accept — including keys whose
hex object-id does not fit in 8 bytes — is skipped and left untouched, as
is every accepted key whose object-id is still reachable; an accepted key
with an unreachable object-id is deleted when its individual delete
succeeds, regardless of the delete oracle at every other key (deletions
are independent and best-effort, and `pack` is total for every oracle).
Amendment forced by the counterexample: the source matches with Python
`re`, whose `$` also accepts a single trailing newline after `.blob`, so
acceptance is by `_oid_from_key` rather than by the spec's literal "exact
shape". -/
theorem claim_C7 (env : Env) (reachable : Nat → Bool) (s : BlobState) :
    (∀ k, _oid_from_key k = none →
      lookupA (pack env reachable s).remote k = lookupA s.remote k) ∧
    (∀ k oid, _oid_from_key k = some oid → reachable oid = true →
      lookupA (pack env reachable s).remote k = lookupA s.remote k) ∧
    (∀ k oid c, lookupA s.remote k = some c → _oid_from_key k = some oid →
      reachable oid = false → env.deleteFails k = false →
      lookupA (pack env reachable s).remote k = none) := by
  refine ⟨?_, ?_, ?_⟩
  · intro k hk
    refine foldl_packStep_preserved env reachable _ s k ?_
    unfold packRemoves
    rw [hk]
  · intro k oid hk hreach
    refine foldl_packStep_preserved env reachable _ s k ?_
    unfold packRemoves
    rw [hk]
    simp [hreach]
  · intro k oid c hc hk hreach hdel
    refine foldl_packStep_removes env reachable _ s k (mem_list_objects hc hk) ?_
    unfold packRemoves
    rw [hk]
    simp [hreach, hdel]

theorem claim_C7_witness :
    lookupA (⟨[], [], [], [], [("blobs/1/2.blob", "x")]⟩ : BlobState).remote "blobs/1/2.blob"
      = some "x" ∧
    _oid_from_key "blobs/1/2.blob" = some 1 ∧
    (fun _ : Nat => false) 1 = false ∧
    (noFailEnv "c").deleteFails "blobs/1/2.blob" = false ∧
    lookupA (pack (noFailEnv "c") (fun _ => false)
      (⟨[], [], [], [], [("blobs/1/2.blob", "x")]⟩ : BlobState)).remote "blobs/1/2.blob" = none :=
  ⟨by decide, by decide, by decide, by decide,
   (claim_C7 (noFailEnv "c") (fun _ => false)
     (⟨[], [], [], [], [("blobs/1/2.blob", "x")]⟩ : BlobState)).2.2
     "blobs/1/2.blob" 1 "x" (by decide) (by decide) (by decide) (by decide)⟩

/-- Predicate written from the claim wording, not from the source: a key of
the exact shape `blobs/{hex}/{hex}.blob` with nonempty lowercase hex
groups and nothing after `.blob`.  It exists only to be compared with the
implementation parser `_oid_from_key`; the two differ on keys carrying a
single trailing newline, which Python `$` accepts. -/
def exactBlobKeyShape (key : String) : Bool :=
  match stripPrefixChars "blobs/".toList key.toList with
  | none => false
  | some rest =>
      match rest.dropWhile isLowerHexDigit with
      | '/' :: rest2 =>
          !(rest.takeWhile isLowerHexDigit).isEmpty &&
          (!(rest2.takeWhile isLowerHexDigit).isEmpty &&
           decide (rest2.dropWhile isLowerHexDigit = ".blob".toList))
      | _ => false

theorem claim_C7_counterexample :
    exactBlobKeyShape "blobs/a/1.blob\n" = false ∧
    _oid_from_key "blobs/a/1.blob\n" = some 10 ∧
    lookupA (pack (noFailEnv "c") (fun _ => false)
      (⟨[], [], [], [], [("blobs/a/1.blob\n", "orphan")]⟩ : BlobState)).remote
      "blobs/a/1.blob\n" = none := by
  exact ⟨by decide, by decide, by decide⟩

theorem evictLoop_noFail (target : Nat) :
    ∀ (l : List CFile) (total : Nat),
      ∃ n, n ≤ l.length ∧
        evictLoop (fun _ => false) target total l = l.take n ∧
        (∀ m, m < n → target < total - ((l.take m).map CFile.size).sum) ∧
        (n = l.length ∨ total - ((l.take n).map CFile.size).sum ≤ target) := by
  intro l
  induction l with
  | nil =>
      intro total
      exact ⟨0, Nat.le_refl 0, rfl, fun m hm => absurd hm (Nat.not_lt_zero m), Or.inl rfl⟩
  | cons f rest ih =>
      intro total
      by_cases hle : total ≤ target
      · refine ⟨0, Nat.zero_le _, by simp [evictLoop, hle], ?_, Or.inr (by simpa using hle)⟩
        intro m hm
        exact absurd hm (Nat.not_lt_zero m)
      · obtain ⟨n, hn, heq, hmin, hstop⟩ := ih (total - f.size)
        refine ⟨n + 1, Nat.succ_le_succ hn, ?_, ?_, ?_⟩
        · simp [evictLoop, hle, heq]
        · intro m hm
          cases m with
          | zero => simpa using Nat.lt_of_not_le hle
          | succ m0 =>
              have hm0 := hmin m0 (Nat.lt_of_succ_lt_succ hm)
              simp only [List.take_succ_cons, List.map_cons, List.sum_cons]
              rw [← Nat.sub_sub]
              exact hm0
        · rcases hstop with hlen | hle2
          · exact Or.inl (by simp [hlen])
          · refine Or.inr ?_
            simp only [List.take_succ_cons, List.map_cons, List.sum_cons]
            rw [← Nat.sub_sub]
            exact hle2

theorem evictLoop_subset (rf : String → Bool) (target : Nat) :
    ∀ (l : List CFile) (total : Nat) (f : CFile),
      f ∈ evictLoop rf target total l → f ∈ l := by
  intro l
  induction l with
  | nil => intro total f h; simp [evictLoop] at h
  | cons g rest ih =>
      intro total f h
      by_cases h1 : total ≤ target
      · simp [evictLoop, h1] at h
      · cases h2 : rf g.name with
        | true =>
            simp only [evictLoop, if_neg h1, h2, if_true] at h
            exact List.mem_cons_of_mem _ (ih _ f h)
        | false =>
            simp only [evictLoop, if_neg h1, h2, Bool.false_eq_true, if_false,
              ite_false, List.mem_cons] at h
            rcases h with heq | hmem
            · simp [heq]
            · exact List.mem_cons_of_mem _ (ih _ f hmem)

theorem evictLoop_not_removeFails (rf : String → Bool) (target : Nat) :
    ∀ (l : List CFile) (total : Nat) (f : CFile),
      f ∈ evictLoop rf target total l → rf f.name = false := by
  intro l
  induction l with
  | nil => intro total f h; simp [evictLoop] at h
  | cons g rest ih =>
      intro total f h
      by_cases h1 : total ≤ target
      · simp [evictLoop, h1] at h
      · cases h2 : rf g.name with
        | true =>
            simp only [evictLoop, if_neg h1, h2, if_true] at h
            exact ih _ f h
        | false =>
            simp only [evictLoop, if_neg h1, h2, Bool.false_eq_true, if_false,
              ite_false, List.mem_cons] at h
            rcases h with heq | hmem
            · rw [heq]
              exact h2
            · exact ih _ f hmem

instance : IsTotal CFile (fun a b => a.atime ≤ b.atime) :=
  ⟨fun a b => Nat.le_total a.atime b.atime⟩

instance : IsTrans CFile (fun a b => a.atime ≤ b.atime) :=
  ⟨fun _ _ _ hab hbc => Nat.le_trans hab hbc⟩

theorem sortByAtime_sorted (l : List CFile) :
    (sortByAtime l).Pairwise (fun a b => a.atime ≤ b.atime) :=
  List.sorted_insertionSort (fun a b : CFile => a.atime ≤ b.atime) l

theorem sortByAtime_perm (l : List CFile) : List.Perm (sortByAtime l) l :=
  List.perm_insertionSort (fun a b : CFile => a.atime ≤ b.atime) l

theorem sortByAtime_sum (l : List CFile) :
    ((sortByAtime l).map CFile.size).sum = (l.map CFile.size).sum :=
  ((sortByAtime_perm l).map CFile.size).sum_eq

theorem sortByAtime_mem {l : List CFile} {f : CFile} :
    f ∈ sortByAtime l ↔ f ∈ l :=
  (sortByAtime_perm l).mem_iff

theorem scanFiles_stat (statFails : String → Bool) (fs : List CFile) :
    scanFiles statFails fs
      = scanFiles (fun _ => false) (fs.filter (fun f => ! statFails f.name)) := by
  unfold scanFiles
  rw [List.filter_filter]
  apply List.filter_congr
  intro f _
  cases h1 : endsWithChars ".blob" f.name <;> cases h2 : statFails f.name <;> simp [h1, h2]

/-- C4: cleanup postcondition and eviction order.  A pass whose scanned
total does not exceed `max_size` deletes nothing.  Otherwise (with all
stats and removals succeeding) the deleted entries are exactly a prefix of
the atime-ascending ordering of the scanned files: deletion stops at the
first point where the accounted total is at or below the target, every
shorter prefix leaves the total above the target, and every deleted entry
has an access time no newer than any surviving entry.  A stat failure on a
file only excludes that file from the pass, and a removal failure on a
file skips that file while the loop continues with the remaining files. -/
theorem claim_C4 (maxSize target : Nat) (statFails removeFails : String → Bool)
    (fs : List CFile) :
    (((scanFiles statFails fs).map CFile.size).sum ≤ maxSize →
      _cleanup maxSize target statFails removeFails fs = []) ∧
    (maxSize < ((scanFiles (fun _ => false) fs).map CFile.size).sum →
      ∃ n, _cleanup maxSize target (fun _ => false) (fun _ => false) fs
          = (sortByAtime (scanFiles (fun _ => false) fs)).take n ∧
        ((scanFiles (fun _ => false) fs).map CFile.size).sum
          - (((sortByAtime (scanFiles (fun _ => false) fs)).take n).map CFile.size).sum
          ≤ target ∧
        (∀ m, m < n →
          target < ((scanFiles (fun _ => false) fs).map CFile.size).sum
            - (((sortByAtime (scanFiles (fun _ => false) fs)).take m).map CFile.size).sum) ∧
        (∀ g ∈ (sortByAtime (scanFiles (fun _ => false) fs)).take n,
          ∀ h2 ∈ (sortByAtime (scanFiles (fun _ => false) fs)).drop n,
            g.atime ≤ h2.atime)) ∧
    (_cleanup maxSize target statFails removeFails fs
      = _cleanup maxSize target (fun _ => false) removeFails
          (fs.filter (fun f => ! statFails f.name))) ∧
    (∀ f, removeFails f.name = true →
      f ∉ _cleanup maxSize target statFails removeFails fs) ∧
    (∀ total f rest, target < total → removeFails f.name = true →
      evictLoop removeFails target total (f :: rest)
        = evictLoop removeFails target total rest) := by
  refine ⟨?_, ?_, ?_, ?_, ?_⟩
  · intro h
    unfold _cleanup
    rw [if_pos h]
  · intro hgt
    obtain ⟨n, hn, heq, hmin, hstop⟩ :=
      evictLoop_noFail target (sortByAtime (scanFiles (fun _ => false) fs))
        ((scanFiles (fun _ => false) fs).map CFile.size).sum
    refine ⟨n, ?_, ?_, hmin, ?_⟩
    · unfold _cleanup
      rw [if_neg (by omega)]
      exact heq
    · rcases hstop with hlen | hle2
      · rw [hlen, List.take_length, sortByAtime_sum]
        omega
      · exact hle2
    · intro g hg h2 hh2
      have hpw := sortByAtime_sorted (scanFiles (fun _ => false) fs)
      rw [← List.take_append_drop n (sortByAtime (scanFiles (fun _ => false) fs))] at hpw
      exact (List.pairwise_append.mp hpw).2.2 g hg h2 hh2
  · unfold _cleanup
    rw [scanFiles_stat statFails fs]
  · intro f hrf hmem
    unfold _cleanup at hmem
    by_cases hc : ((scanFiles statFails fs).map CFile.size).sum ≤ maxSize
    · rw [if_pos hc] at hmem
      cases hmem
    · rw [if_neg hc] at hmem
      have := evictLoop_not_removeFails removeFails target _ _ f hmem
      rw [hrf] at this
      cases this
  · intro total f rest hgt hrf
    have hnle : ¬ total ≤ target := by omega
    simp [evictLoop, hnle, hrf]

theorem claim_C4_witness :
    ((scanFiles (fun _ => false)
        [(⟨"1/1.blob", 1, 200⟩ : CFile), ⟨"1/2.blob", 2, 200⟩]).map CFile.size).sum ≤ 500 ∧
    _cleanup 500 450 (fun _ => false) (fun _ => false)
      [(⟨"1/1.blob", 1, 200⟩ : CFile), ⟨"1/2.blob", 2, 200⟩] = [] :=
  ⟨by decide,
   (claim_C4 500 450 (fun _ => false) (fun _ => false)
     [(⟨"1/1.blob", 1, 200⟩ : CFile), ⟨"1/2.blob", 2, 200⟩]).1 (by decide)⟩

/-- C10: cleanup and size accounting touch only `.blob` files.  Every file
a cleanup pass removes comes from the cache tree and has a name ending in
`.blob`, for every oracle and every directory state; and the total-size
walk counts exactly the `.blob` files, so filtering out every other file
first does not change the computed size. -/
theorem claim_C10 (maxSize target : Nat)
    (statFails removeFails sizeFails : String → Bool) (fs : List CFile) :
    (∀ f ∈ _cleanup maxSize target statFails removeFails fs,
      f ∈ fs ∧ endsWithChars ".blob" f.name = true) ∧
    current_size sizeFails fs
      = current_size sizeFails (fs.filter (fun f => endsWithChars ".blob" f.name)) := by
  constructor
  · intro f hmem
    unfold _cleanup at hmem
    by_cases hc : ((scanFiles statFails fs).map CFile.size).sum ≤ maxSize
    · rw [if_pos hc] at hmem
      cases hmem
    · rw [if_neg hc] at hmem
      have hscan : f ∈ scanFiles statFails fs :=
        sortByAtime_mem.mp (evictLoop_subset removeFails target _ _ f hmem)
      have hsf := List.mem_filter.mp hscan
      refine ⟨hsf.1, ?_⟩
      have := hsf.2
      simp only [Bool.and_eq_true] at this
      exact this.1
  · unfold current_size
    rw [List.filter_filter]
    congr 1
    congr 1
    apply List.filter_congr
    intro f _
    cases h1 : endsWithChars ".blob" f.name <;> cases h2 : sizeFails f.name <;> simp [h1, h2]

theorem claim_C10_witness :
    ((⟨"1/1.blob", 1, 200⟩ : CFile)
        ∈ _cleanup 100 90 (fun _ => false) (fun _ => false)
            [(⟨"1/1.blob", 1, 200⟩ : CFile), ⟨"junk.txt", 2, 999⟩]) ∧
    ((⟨"1/1.blob", 1, 200⟩ : CFile)
        ∈ [(⟨"1/1.blob", 1, 200⟩ : CFile), ⟨"junk.txt", 2, 999⟩] ∧
      (endsWithChars ".blob" "1/1.blob") = true) :=
  ⟨by decide,
   (claim_C10 100 90 (fun _ => false) (fun _ => false) (fun _ => false)
     [(⟨"1/1.blob", 1, 200⟩ : CFile), ⟨"junk.txt", 2, 999⟩]).1
     (⟨"1/1.blob", 1, 200⟩ : CFile) (by decide)⟩

def commitOne (cdir : String) (s0 : BlobState) (oid tid : Nat) (X : String) : BlobState :=
  (tpc_finish (noFailEnv cdir) tid (tpc_vote (noFailEnv cdir) tid (storeBlob oid X s0)).1).2

def evictEntry (cdir : String) (oid tid : Nat) (s : BlobState) : BlobState :=
  ⟨s.pending, s.staged, s.uploaded, removeA s.cache (_blob_path cdir oid tid), s.remote⟩

/-- C1: round-trip through the full commit path.  Starting a transaction
with no other pending blob, `storeBlob(oid, X)` followed by a successful
`tpc_vote` and `tpc_finish` returning tid leaves the blob under the
canonical remote key `blobs/{oid_hex}/{tid_hex}.blob` with content `X`;
`loadBlob(oid, tid)` then returns the cache path with content `X`
immediately (served from the cache entry created at finish), and after the
cache entry is forcibly removed it still returns content `X` by
downloading from the remote store, repopulating the cache entry. -/
theorem claim_C1 (cdir : String) (s0 : BlobState) (oid tid : Nat) (X : String)
    (hpend : s0.pending = []) :
    (tpc_vote (noFailEnv cdir) tid (storeBlob oid X s0)).2 = false ∧
    (tpc_finish (noFailEnv cdir) tid (tpc_vote (noFailEnv cdir) tid (storeBlob oid X s0)).1).1
      = tid ∧
    lookupA (commitOne cdir s0 oid tid X).remote (_s3_key oid tid) = some X ∧
    loadBlob (noFailEnv cdir) oid tid (commitOne cdir s0 oid tid X)
      = Except.ok (commitOne cdir s0 oid tid X, _blob_path cdir oid tid, X) ∧
    (∃ s2, loadBlob (noFailEnv cdir) oid tid
        (evictEntry cdir oid tid (commitOne cdir s0 oid tid X))
        = Except.ok (s2, _blob_path cdir oid tid, X) ∧
      lookupA s2.cache (_blob_path cdir oid tid) = some X) := by
  have h1 : storeBlob oid X s0
      = (⟨[(oid, stagedName oid)], insertA s0.staged (stagedName oid) X, s0.uploaded, s0.cache, s0.remote⟩ : BlobState) := by
    unfold storeBlob
    rw [hpend]
    rfl
  have h2 : tpc_vote (noFailEnv cdir) tid (storeBlob oid X s0)
      = ((⟨[(oid, stagedName oid)], insertA s0.staged (stagedName oid) X, s0.uploaded ++ [(oid, tid, _s3_key oid tid)], s0.cache, insertA s0.remote (_s3_key oid tid) X⟩ : BlobState), false) := by
    rw [h1]
    unfold tpc_vote
    simp [voteLoop, noFailEnv, lookupA_insertA_self]
  have h3 : commitOne cdir s0 oid tid X
      = (⟨[], removeA s0.staged (stagedName oid), [], insertA s0.cache (_blob_path cdir oid tid) X, insertA s0.remote (_s3_key oid tid) X⟩ : BlobState) := by
    unfold commitOne
    rw [h2]
    unfold tpc_finish
    simp [finishStep, noFailEnv, lookupA_insertA_self, removeA_insertA]
  refine ⟨by rw [h2], rfl, ?_, ?_, ?_⟩
  · rw [h3]
    exact lookupA_insertA_self _ _ _
  · rw [h3]
    simp [loadBlob, lookupA, loadBlobCached, noFailEnv, lookupA_insertA_self]
  · rw [h3]
    refine ⟨(⟨[], removeA (removeA s0.staged (stagedName oid)) (dlTmpName oid), [], insertA (removeA s0.cache (_blob_path cdir oid tid)) (_blob_path cdir oid tid) X, insertA s0.remote (_s3_key oid tid) X⟩ : BlobState), ?_, by simp [lookupA_insertA_self]⟩
    simp [evictEntry, loadBlob, lookupA, loadBlobCached, loadBlobRemote, noFailEnv,
      removeA_insertA, lookupA_removeA_self, lookupA_insertA_self]

theorem claim_C1_witness :
    (⟨[], [], [], [], []⟩ : BlobState).pending = [] ∧
    ((tpc_vote (noFailEnv "c") 2 (storeBlob 1 "x" (⟨[], [], [], [], []⟩ : BlobState))).2 = false ∧
     (tpc_finish (noFailEnv "c") 2
        (tpc_vote (noFailEnv "c") 2 (storeBlob 1 "x" (⟨[], [], [], [], []⟩ : BlobState))).1).1 = 2 ∧
     lookupA (commitOne "c" (⟨[], [], [], [], []⟩ : BlobState) 1 2 "x").remote (_s3_key 1 2)
       = some "x" ∧
     loadBlob (noFailEnv "c") 1 2 (commitOne "c" (⟨[], [], [], [], []⟩ : BlobState) 1 2 "x")
       = Except.ok (commitOne "c" (⟨[], [], [], [], []⟩ : BlobState) 1 2 "x",
           _blob_path "c" 1 2, "x") ∧
     (∃ s2, loadBlob (noFailEnv "c") 1 2
         (evictEntry "c" 1 2 (commitOne "c" (⟨[], [], [], [], []⟩ : BlobState) 1 2 "x"))
         = Except.ok (s2, _blob_path "c" 1 2, "x") ∧
       lookupA s2.cache (_blob_path "c" 1 2) = some "x")) :=
  ⟨rfl, claim_C1 "c" (⟨[], [], [], [], []⟩ : BlobState) 1 2 "x" rfl⟩

end ZodbS3Blobs
